import Mathlib

/-!
Shallow embedding of the retrieval engine of the Bouquet repository:
strategy selection, deduplication and thresholding of the query pipeline
(app/services/advanced_query_engine.py, app/services/query_engine.py),
hybrid lexical/vector search (app/services/hybrid_search.py),
feedback accumulation (app/services/feedback_service.py) and
hierarchical community construction (app/services/graph_builder.py).
Scores are modelled as rationals; chunk ids as naturals.
-/

namespace Bouquet

/-- Transient query-time result, from app/domain/query.py SearchResult:
only the fields the verified pipeline steps inspect (chunk_id, score). -/
structure SearchResult where
  chunk_id : Nat
  score : ℚ
deriving DecidableEq

/-- Retrieval strategies, from app/domain/query.py RetrievalStrategy. -/
inductive RetrievalStrategy where
  | vectorOnly
  | hybrid
  | entityAware
  | graphTraversal
  | semanticRelationship
  | communityBased
  | adaptive
deriving DecidableEq

/-! ### Substring matching, modelling the Python `kw in query_lower` test -/

/-- Boolean substring test: does the pattern occur contiguously in the haystack?
Models the Python `word in query_lower` membership test on strings. -/
def containsSub (pat hay : List Char) : Bool :=
  hay.tails.any (fun t => pat.isPrefixOf t)

theorem containsSub_eq_true_iff (pat hay : List Char) :
    containsSub pat hay = true ↔ pat <:+: hay := by
  simp only [containsSub, List.any_eq_true, List.mem_tails, List.isPrefixOf_iff_prefix]
  constructor
  · rintro ⟨t, hsuf, hpre⟩
    exact List.infix_iff_prefix_suffix.mpr ⟨t, hpre, hsuf⟩
  · intro h
    obtain ⟨t, hpre, hsuf⟩ := List.infix_iff_prefix_suffix.mp h
    exact ⟨t, hsuf, hpre⟩

/-- Lower-casing of a query, modelling Python query.lower() character-wise. -/
def lowerStr (s : List Char) : List Char :=
  s.map Char.toLower

/-! ### Strategy auto-selection (AdvancedQueryEngine._select_strategy) -/

/-- Keyword class for entity-heavy queries, from _select_strategy. -/
def entityKeywords : List (List Char) :=
  [("who").data, ("what is").data, ("define").data, ("about").data]

/-- Keyword class for relationship queries, from _select_strategy. -/
def relationKeywords : List (List Char) :=
  [("relate").data, ("connect").data, ("between").data, ("link").data]

/-- Keyword class for broad queries, from _select_strategy. -/
def broadKeywords : List (List Char) :=
  [("overview").data, ("summary").data, ("tell me about").data]

/-- Does any keyword of the class occur in the (lower-cased) query? -/
def kwHit (kws : List (List Char)) (q : List Char) : Bool :=
  kws.any (fun w => containsSub w q)

/-- AdvancedQueryEngine._select_strategy: keyword-based strategy choice on
the lower-cased query text, first matching class winning. -/
def select_strategy (query : List Char) : RetrievalStrategy :=
  let q := lowerStr query
  if kwHit entityKeywords q then .entityAware
  else if kwHit relationKeywords q then .graphTraversal
  else if kwHit broadKeywords q then .communityBased
  else .hybrid

/-! ### Similarity thresholding (AdvancedQueryEngine.query / QueryEngine.query) -/

/-- Outcome of the threshold gate in the query pipeline. -/
inductive GateResult where
  | noResults
  | insufficient
  | answered (survivors : List SearchResult)
deriving DecidableEq

/-- Threshold gating step of AdvancedQueryEngine.query (and QueryEngine.query):
keep results scoring at least the threshold; when none survive, return the
insufficient-information response if the threshold is positive, otherwise
fall back to the full result list. -/
def queryGate (threshold : ℚ) (results : List SearchResult) : GateResult :=
  if results.isEmpty then .noResults
  else
    let hq := results.filter (fun r => threshold ≤ r.score)
    if hq.isEmpty then
      if 0 < threshold then .insufficient
      else .answered results
    else .answered hq

/-! ### Feedback accumulation (FeedbackService) -/

/-- In-memory per-chunk accumulator map (FeedbackService.chunk_scores),
as an association list keyed by chunk id. -/
abbrev FeedbackMap := List (Nat × ℚ)

/-- FeedbackService.chunk_scores.get(chunk_id, 0.0). -/
def getScore (m : FeedbackMap) (cid : Nat) : ℚ :=
  match m.find? (fun p => p.1 == cid) with
  | some p => p.2
  | none => 0

/-- Dictionary assignment chunk_scores[chunk_id] = v, replacing an existing
binding in place or appending a fresh one. -/
def setScore : FeedbackMap → Nat → ℚ → FeedbackMap
  | [], cid, v => [(cid, v)]
  | p :: rest, cid, v =>
    if p.1 = cid then (cid, v) :: rest else p :: setScore rest cid v

/-- Score delta of FeedbackService.record_feedback: positive feedback adds
learning_rate scaled by rating/5 (1.0 without a rating); negative feedback
subtracts learning_rate scaled by (5 - rating)/5 (1.0 without a rating). -/
def feedbackDelta (lr : ℚ) (helpful : Bool) (rating : Option ℚ) : ℚ :=
  if helpful then
    lr * (match rating with | none => 1 | some r => r / 5)
  else
    -(lr * (match rating with | none => 1 | some r => (5 - r) / 5))

/-- FeedbackService.record_feedback restricted to its effect on the
chunk_scores accumulator. -/
def record_feedback (lr : ℚ) (m : FeedbackMap) (cid : Nat) (helpful : Bool)
    (rating : Option ℚ) : FeedbackMap :=
  setScore m cid (getScore m cid + feedbackDelta lr helpful rating)

theorem getScore_setScore_self (m : FeedbackMap) (cid : Nat) (v : ℚ) :
    getScore (setScore m cid v) cid = v := by
  induction m with
  | nil => simp [setScore, getScore, List.find?]
  | cons p rest ih =>
    by_cases h : p.1 = cid
    · simp [setScore, h, getScore, List.find?]
    · simp only [setScore, if_neg h]
      simp only [getScore, List.find?] at ih ⊢
      have hbeq : (p.1 == cid) = false := by simp [h]
      simp [hbeq, ih]

theorem getScore_record_feedback (lr : ℚ) (m : FeedbackMap) (cid : Nat)
    (helpful : Bool) (rating : Option ℚ) :
    getScore (record_feedback lr m cid helpful rating) cid =
      getScore m cid + feedbackDelta lr helpful rating := by
  unfold record_feedback
  exact getScore_setScore_self m cid _

theorem kwHit_entity_of_tell_me_about (q : List Char)
    (h : containsSub (("tell me about").data) q = true) :
    kwHit entityKeywords q = true := by
  have habout : (("about").data) <:+: q := by
    refine List.IsInfix.trans ?_ ((containsSub_eq_true_iff _ q).mp h)
    exact ⟨(("tell me ").data), [], by rfl⟩
  simp only [kwHit, List.any_eq_true]
  refine ⟨(("about").data), by simp [entityKeywords], ?_⟩
  exact (containsSub_eq_true_iff _ q).mpr habout

/-- C2 counterexample: the query "tell me about France" contains the broad
keyword "tell me about" and no relational keyword, yet _select_strategy
resolves it to ENTITY_AWARE (because "about" is in the identity/definition
class, checked first), not COMMUNITY_BASED as the claim states. -/
theorem select_strategy_tell_me_about_counterexample :
    select_strategy (("tell me about France").data) = RetrievalStrategy.entityAware ∧
    kwHit relationKeywords (lowerStr (("tell me about France").data)) = false ∧
    containsSub (("tell me about").data) (lowerStr (("tell me about France").data)) = true ∧
    RetrievalStrategy.entityAware ≠ RetrievalStrategy.communityBased := by
  decide

/-- C2 (amended): ADAPTIVE strategy resolution checks keyword classes in a
fixed priority order (identity/definition including "about", then relational
including "link", then broad/overview, then HYBRID); because "about" belongs
to the first class, any query containing "tell me about" resolves to
ENTITY_AWARE, and only broad-language queries free of identity and
relational keywords resolve to COMMUNITY_BASED. -/
theorem select_strategy_priority (q : List Char) :
    (kwHit entityKeywords (lowerStr q) = true → select_strategy q = .entityAware) ∧
    (containsSub (("tell me about").data) (lowerStr q) = true →
      select_strategy q = .entityAware) ∧
    (kwHit entityKeywords (lowerStr q) = false →
      kwHit relationKeywords (lowerStr q) = true →
      select_strategy q = .graphTraversal) ∧
    (kwHit entityKeywords (lowerStr q) = false →
      kwHit relationKeywords (lowerStr q) = false →
      kwHit broadKeywords (lowerStr q) = true →
      select_strategy q = .communityBased) ∧
    (kwHit entityKeywords (lowerStr q) = false →
      kwHit relationKeywords (lowerStr q) = false →
      kwHit broadKeywords (lowerStr q) = false →
      select_strategy q = .hybrid) := by
  refine ⟨fun h1 => ?_, fun h => ?_, fun h1 h2 => ?_, fun h1 h2 h3 => ?_, fun h1 h2 h3 => ?_⟩
  · simp [select_strategy, h1]
  · simp [select_strategy, kwHit_entity_of_tell_me_about _ h]
  · simp [select_strategy, h1, h2]
  · simp [select_strategy, h1, h2, h3]
  · simp [select_strategy, h1, h2, h3]

/-- C2 witness: a pure overview query with no identity or relational
keyword resolves to COMMUNITY_BASED, via the amended priority theorem. -/
theorem select_strategy_priority_witness :
    select_strategy (("overview of physics").data) = RetrievalStrategy.communityBased :=
  (select_strategy_priority (("overview of physics").data)).2.2.2.1
    (by decide) (by decide) (by decide)

/-- C3: for a non-empty deduplicated candidate set, if the similarity
threshold is positive and no candidate reaches it, the query pipeline
returns the distinct insufficient-information result; if the threshold is
zero that result is never returned, and when every raw score is zero all
candidates survive gating. -/
theorem queryGate_threshold_spec (threshold : ℚ) (results : List SearchResult)
    (hne : results ≠ []) :
    (0 < threshold → (∀ r ∈ results, r.score < threshold) →
      queryGate threshold results = .insufficient) ∧
    (threshold = 0 → queryGate threshold results ≠ .insufficient) ∧
    (threshold = 0 → (∀ r ∈ results, r.score = 0) →
      queryGate threshold results = .answered results) := by
  have hne2 : results.isEmpty = false := by
    simpa [List.isEmpty_iff] using hne
  refine ⟨fun hpos hall => ?_, fun h0 => ?_, fun h0 hzero => ?_⟩
  · have hfil : results.filter (fun r => decide (threshold ≤ r.score)) = [] := by
      refine List.filter_eq_nil_iff.mpr fun r hr => ?_
      simpa using not_le.mpr (hall r hr)
    simp [queryGate, hne2, hfil, hpos]
  · subst h0
    by_cases hfe : (results.filter (fun r => decide ((0:ℚ) ≤ r.score))).isEmpty
    · simp [queryGate, hne2, hfe]
    · simp [queryGate, hne2, hfe]
  · subst h0
    have hfil : results.filter (fun r => decide ((0:ℚ) ≤ r.score)) = results := by
      refine List.filter_eq_self.mpr fun r hr => ?_
      simp [hzero r hr]
    have hfe : (results.filter (fun r => decide ((0:ℚ) ≤ r.score))).isEmpty = false := by
      rw [hfil]; exact hne2
    simp [queryGate, hne2, hfe, hfil]

/-- C3 witness: with threshold 7/10 and the single candidate scoring 1/2,
the gate returns the insufficient-information result. -/
theorem queryGate_threshold_witness :
    queryGate (7/10) [⟨1, 1/2⟩] = GateResult.insufficient :=
  (queryGate_threshold_spec (7/10) [⟨1, 1/2⟩] (by simp)).1 (by norm_num)
    (by intro r hr; simp at hr; subst hr; norm_num)

/-- C4 counterexample: for helpful=false with rating 5 the claim predicts a
change of -learning_rate*(5/5) = -learning_rate, but record_feedback scales
negative feedback by (5 - rating)/5, so the accumulator does not move. -/
theorem record_feedback_rating_scale_counterexample :
    getScore (record_feedback (1/10) [] 0 false (some 5)) 0 = 0 ∧
    (0 : ℚ) ≠ -(1/10) * (5 / 5) := by
  refine ⟨?_, by norm_num⟩
  simp [record_feedback, setScore, getScore, List.find?, feedbackDelta]

/-- C4 (amended): record_feedback moves the per-chunk accumulator by exactly
learning_rate*(rating/5) for helpful feedback and by
-learning_rate*((5 - rating)/5) for unhelpful feedback (magnitude 1.0 when
the rating is absent); repeated helpful events never decrease the
accumulator, and n repetitions add exactly n*learning_rate*(rating/5). -/
theorem record_feedback_spec (lr r : ℚ) (m : FeedbackMap) (cid : Nat)
    (hlr : 0 ≤ lr) (hr1 : 1 ≤ r) (hr5 : r ≤ 5) :
    getScore (record_feedback lr m cid true (some r)) cid =
      getScore m cid + lr * (r / 5) ∧
    getScore (record_feedback lr m cid false (some r)) cid =
      getScore m cid - lr * ((5 - r) / 5) ∧
    getScore (record_feedback lr m cid true none) cid = getScore m cid + lr ∧
    getScore (record_feedback lr m cid false none) cid = getScore m cid - lr ∧
    getScore m cid ≤ getScore (record_feedback lr m cid true (some r)) cid ∧
    (∀ n : Nat,
      getScore ((fun mm => record_feedback lr mm cid true (some r))^[n] m) cid =
        getScore m cid + n * (lr * (r / 5))) := by
  have hdelta : 0 ≤ lr * (r / 5) := by
    have hr0 : (0:ℚ) ≤ r / 5 := by positivity
    exact mul_nonneg hlr hr0
  refine ⟨?_, ?_, ?_, ?_, ?_, ?_⟩
  · rw [getScore_record_feedback]; simp [feedbackDelta]
  · rw [getScore_record_feedback]; simp [feedbackDelta]; ring
  · rw [getScore_record_feedback]; simp [feedbackDelta]
  · rw [getScore_record_feedback]; simp [feedbackDelta]; ring
  · rw [getScore_record_feedback]
    simp only [feedbackDelta, if_pos]
    linarith
  · intro n
    induction n with
    | zero => simp
    | succ k ih =>
      rw [Function.iterate_succ_apply', getScore_record_feedback, ih]
      simp only [feedbackDelta, if_pos]
      push_cast
      ring

/-- C4 witness: one helpful rating-3 event at learning rate 1/10 raises a
fresh accumulator by exactly 1/10*(3/5). -/
theorem record_feedback_spec_witness :
    getScore (record_feedback (1/10) [] 0 true (some 3)) 0 =
      getScore [] 0 + (1/10) * (3 / 5) :=
  (record_feedback_spec (1/10) 3 [] 0 (by norm_num) (by norm_num) (by norm_num)).1

/-! ### Deduplication (AdvancedQueryEngine.query and _graph_traversal_search) -/

/-- First-occurrence deduplication with an explicit seen set, modelling the
seen_chunks loop of AdvancedQueryEngine.query. -/
def dedupFirstAux (seen : List Nat) : List SearchResult → List SearchResult
  | [] => []
  | r :: rest =>
    if r.chunk_id ∈ seen then dedupFirstAux seen rest
    else r :: dedupFirstAux (r.chunk_id :: seen) rest

/-- Deduplication of the accumulated fan-out candidates in
AdvancedQueryEngine.query: keep the first occurrence of each chunk id in
accumulation order (no sorting beforehand). -/
def dedupFirst (rs : List SearchResult) : List SearchResult :=
  dedupFirstAux [] rs

/-- Stable descending sort by score, modelling
sorted(all_results, key=lambda x: x.score, reverse=True). -/
def sortByScoreDesc (rs : List SearchResult) : List SearchResult :=
  rs.mergeSort (fun a b => decide (b.score ≤ a.score))

/-- Deduplication in AdvancedQueryEngine._graph_traversal_search (and
_semantic_relationship_search): sort by score descending first, then keep
the first occurrence of each chunk id. -/
def dedupByMaxScore (rs : List SearchResult) : List SearchResult :=
  dedupFirst (sortByScoreDesc rs)

theorem mem_of_mem_dedupFirstAux :
    ∀ (seen : List Nat) (rs : List SearchResult) (r : SearchResult),
      r ∈ dedupFirstAux seen rs → r ∈ rs ∧ r.chunk_id ∉ seen
  | _, [], r => by simp [dedupFirstAux]
  | seen, x :: rest, r => by
    intro h
    by_cases hx : x.chunk_id ∈ seen
    · rw [dedupFirstAux, if_pos hx] at h
      obtain ⟨hmem, hns⟩ := mem_of_mem_dedupFirstAux seen rest r h
      exact ⟨List.mem_cons_of_mem _ hmem, hns⟩
    · rw [dedupFirstAux, if_neg hx] at h
      rcases List.mem_cons.mp h with h1 | h2
      · exact ⟨List.mem_cons.mpr (Or.inl h1), by rw [h1]; exact hx⟩
      · obtain ⟨hmem, hns⟩ := mem_of_mem_dedupFirstAux _ rest r h2
        exact ⟨List.mem_cons_of_mem _ hmem,
          fun hc => hns (List.mem_cons_of_mem _ hc)⟩

theorem id_mem_dedupFirstAux_iff :
    ∀ (seen : List Nat) (rs : List SearchResult) (i : Nat),
      i ∈ (dedupFirstAux seen rs).map SearchResult.chunk_id ↔
        i ∈ rs.map SearchResult.chunk_id ∧ i ∉ seen
  | _, [], i => by simp [dedupFirstAux]
  | seen, x :: rest, i => by
    by_cases hx : x.chunk_id ∈ seen
    · rw [dedupFirstAux, if_pos hx, id_mem_dedupFirstAux_iff seen rest i]
      simp only [List.map_cons, List.mem_cons]
      constructor
      · rintro ⟨hm, hns⟩
        exact ⟨Or.inr hm, hns⟩
      · rintro ⟨hm | hm, hns⟩
        · exact absurd (hm ▸ hx) hns
        · exact ⟨hm, hns⟩
    · rw [dedupFirstAux, if_neg hx]
      simp only [List.map_cons, List.mem_cons,
        id_mem_dedupFirstAux_iff (x.chunk_id :: seen) rest i]
      constructor
      · rintro (h | ⟨hm, hns⟩)
        · exact ⟨Or.inl h, h ▸ hx⟩
        · exact ⟨Or.inr hm, fun hc => hns (Or.inr hc)⟩
      · rintro ⟨hm | hm, hns⟩
        · exact Or.inl hm
        · by_cases hix : i = x.chunk_id
          · exact Or.inl hix
          · refine Or.inr ⟨hm, fun hc => ?_⟩
            rcases hc with hc1 | hc2
            · exact hix hc1
            · exact hns hc2

theorem nodup_ids_dedupFirstAux :
    ∀ (seen : List Nat) (rs : List SearchResult),
      ((dedupFirstAux seen rs).map SearchResult.chunk_id).Nodup
  | _, [] => by simp [dedupFirstAux]
  | seen, x :: rest => by
    by_cases hx : x.chunk_id ∈ seen
    · rw [dedupFirstAux, if_pos hx]
      exact nodup_ids_dedupFirstAux seen rest
    · rw [dedupFirstAux, if_neg hx]
      simp only [List.map_cons, List.nodup_cons]
      refine ⟨fun hc => ?_, nodup_ids_dedupFirstAux _ rest⟩
      have := (id_mem_dedupFirstAux_iff (x.chunk_id :: seen) rest x.chunk_id).mp hc
      exact this.2 (List.mem_cons_self _ _)

theorem dedupFirstAux_max_of_sorted :
    ∀ (seen : List Nat) (rs : List SearchResult),
      rs.Pairwise (fun a b => b.score ≤ a.score) →
      ∀ r ∈ dedupFirstAux seen rs, ∀ s ∈ rs,
        s.chunk_id = r.chunk_id → s.score ≤ r.score
  | _, [], _ => by simp [dedupFirstAux]
  | seen, x :: rest, hsort => by
    have hx_rest : ∀ s ∈ rest, s.score ≤ x.score :=
      fun s hs => (List.pairwise_cons.mp hsort).1 s hs
    have hrest : rest.Pairwise (fun a b => b.score ≤ a.score) :=
      (List.pairwise_cons.mp hsort).2
    intro r hr s hs hid
    by_cases hxs : x.chunk_id ∈ seen
    · rw [dedupFirstAux, if_pos hxs] at hr
      have hrns := (mem_of_mem_dedupFirstAux seen rest r hr).2
      rcases List.mem_cons.mp hs with hsx | hsr
      · exact absurd (by rw [← hid, hsx]; exact hxs) (fun hc => hrns hc)
      · exact dedupFirstAux_max_of_sorted seen rest hrest r hr s hsr hid
    · rw [dedupFirstAux, if_neg hxs] at hr
      rcases List.mem_cons.mp hr with hrx | hrr
      · rcases List.mem_cons.mp hs with hsx | hsr
        · rw [hsx, hrx]
        · rw [hrx]
          exact hx_rest s hsr
      · have hrns := (mem_of_mem_dedupFirstAux _ rest r hrr).2
        rcases List.mem_cons.mp hs with hsx | hsr
        · exact absurd (by rw [← hid, hsx]; exact List.mem_cons_self _ _)
            (fun hc => hrns hc)
        · exact dedupFirstAux_max_of_sorted _ rest hrest r hrr s hsr hid

theorem sortByScoreDesc_pairwise (rs : List SearchResult) :
    (sortByScoreDesc rs).Pairwise (fun a b => b.score ≤ a.score) := by
  have h := @List.sorted_mergeSort SearchResult
    (fun a b => decide (b.score ≤ a.score))
    (fun a b c hab hbc => by
      simp only [decide_eq_true_eq] at *
      exact le_trans hbc hab)
    (fun a b => by
      simp only [Bool.or_eq_true, decide_eq_true_eq]
      exact le_total b.score a.score)
    rs
  exact h.imp (fun hab => of_decide_eq_true hab)

/-- C1 counterexample: the top-level fan-out deduplication in
AdvancedQueryEngine.query keeps the first accumulated occurrence of a chunk
id without sorting, so with duplicates of chunk 1 at scores 1/5 then 9/10
it keeps the 1/5 entry although a higher-scoring duplicate exists. -/
theorem dedupFirst_keeps_first_counterexample :
    dedupFirst [⟨1, 1/5⟩, ⟨1, 9/10⟩] = [⟨1, 1/5⟩] ∧
    SearchResult.mk 1 (9/10) ∈ [SearchResult.mk 1 (1/5), ⟨1, 9/10⟩] ∧
    ¬((9:ℚ)/10 ≤ 1/5) := by
  refine ⟨?_, by simp, by norm_num⟩
  simp [dedupFirst, dedupFirstAux]

/-- C1 (amended): both deduplications keep exactly one entry per chunk id
(the output ids are duplicate-free and cover exactly the input ids); the
graph-traversal deduplication sorts by score descending first and therefore
keeps a maximum-scoring duplicate, while the top-level fan-out
deduplication keeps the first occurrence in accumulation order, which need
not be the maximum-scoring one. -/
theorem dedup_spec (rs : List SearchResult) :
    ((dedupFirst rs).map SearchResult.chunk_id).Nodup ∧
    (∀ i, i ∈ (dedupFirst rs).map SearchResult.chunk_id ↔
      i ∈ rs.map SearchResult.chunk_id) ∧
    ((dedupByMaxScore rs).map SearchResult.chunk_id).Nodup ∧
    (∀ i, i ∈ (dedupByMaxScore rs).map SearchResult.chunk_id ↔
      i ∈ rs.map SearchResult.chunk_id) ∧
    (∀ r ∈ dedupByMaxScore rs, r ∈ rs) ∧
    (∀ r ∈ dedupByMaxScore rs, ∀ s ∈ rs,
      s.chunk_id = r.chunk_id → s.score ≤ r.score) := by
  have hperm : (sortByScoreDesc rs).Perm rs := List.mergeSort_perm rs _
  refine ⟨nodup_ids_dedupFirstAux [] rs, fun i => ?_,
    nodup_ids_dedupFirstAux [] _, fun i => ?_, fun r hr => ?_, fun r hr s hs hid => ?_⟩
  · simpa using id_mem_dedupFirstAux_iff [] rs i
  · rw [dedupByMaxScore, dedupFirst]
    rw [id_mem_dedupFirstAux_iff [] _ i]
    simp only [List.not_mem_nil, not_false_eq_true, and_true]
    constructor
    · rintro h
      obtain ⟨x, hx, hxi⟩ := List.mem_map.mp h
      exact List.mem_map.mpr ⟨x, hperm.mem_iff.mp hx, hxi⟩
    · rintro h
      obtain ⟨x, hx, hxi⟩ := List.mem_map.mp h
      exact List.mem_map.mpr ⟨x, hperm.mem_iff.mpr hx, hxi⟩
  · have := (mem_of_mem_dedupFirstAux [] _ r hr).1
    exact hperm.mem_iff.mp this
  · exact dedupFirstAux_max_of_sorted [] (sortByScoreDesc rs)
      (sortByScoreDesc_pairwise rs) r hr s (hperm.mem_iff.mpr hs) hid

/-- C1 witness: on duplicates of chunk 1 at scores 1/5 and 9/10, the
sorted deduplication keeps chunk id 1 with no duplicate id. -/
theorem dedup_spec_witness :
    (1:Nat) ∈ (dedupByMaxScore [⟨1, 1/5⟩, ⟨1, 9/10⟩]).map SearchResult.chunk_id ∧
    ((dedupByMaxScore [⟨1, 1/5⟩, ⟨1, 9/10⟩]).map SearchResult.chunk_id).Nodup :=
  ⟨((dedup_spec [⟨1, 1/5⟩, ⟨1, 9/10⟩]).2.2.2.1 1).mpr (by simp),
   (dedup_spec [⟨1, 1/5⟩, ⟨1, 9/10⟩]).2.2.1⟩

/-! ### Score normalization (HybridSearchEngine.combine_scores) -/

/-- Python max over a non-empty score collection (0 as a dummy for empty). -/
def listMax : List ℚ → ℚ
  | [] => 0
  | x :: xs => xs.foldl max x

theorem foldl_max_mem : ∀ (xs : List ℚ) (x : ℚ), xs.foldl max x ∈ x :: xs
  | [], x => by simp
  | y :: ys, x => by
    have h := foldl_max_mem ys (max x y)
    simp only [List.foldl_cons]
    rcases List.mem_cons.mp h with h1 | h2
    · rcases max_choice x y with hm | hm
      · exact List.mem_cons.mpr (Or.inl (by rw [h1, hm]))
      · exact List.mem_cons_of_mem _ (List.mem_cons.mpr (Or.inl (by rw [h1, hm])))
    · exact List.mem_cons_of_mem _ (List.mem_cons_of_mem _ h2)

theorem listMax_mem (l : List ℚ) (hne : l ≠ []) : listMax l ∈ l := by
  match l with
  | [] => exact absurd rfl hne
  | x :: xs => exact foldl_max_mem xs x

/-- Normalization branch of HybridSearchEngine.combine_scores on one score
list: an empty list is left untouched (the `if normalize and scores` guard),
otherwise every score is divided by the maximum; when the maximum is zero
the division raises ZeroDivisionError, modelled as none. -/
def normalizeScores (l : List ℚ) : Option (List ℚ) :=
  if l.isEmpty then some l
  else if listMax l = 0 then none
  else some (l.map (fun v => v / listMax l))

/-- C7 counterexample: on the non-empty all-zero score list [0] the
normalization divides by max = 0 and raises (modelled as none), so no
normalized list with maximum element 1.0 is produced. -/
theorem normalizeScores_all_zero_counterexample :
    normalizeScores [0] = none ∧
    ¬ ∃ m, normalizeScores [0] = some m ∧ (1:ℚ) ∈ m := by
  have h : normalizeScores [0] = none := by
    simp [normalizeScores, listMax]
  refine ⟨h, ?_⟩
  rintro ⟨m, hm, _⟩
  rw [h] at hm
  exact Option.noConfusion hm

/-- C7 (amended): for every non-empty score list whose maximum is nonzero
(in particular any all-negative list), combine_scores normalization divides
each score by the list maximum, and the maximum element's normalized score
is exactly 1; when the maximum is exactly zero the division fails instead. -/
theorem normalizeScores_max_one (l : List ℚ) (hne : l ≠ []) (h0 : listMax l ≠ 0) :
    normalizeScores l = some (l.map (fun v => v / listMax l)) ∧
    listMax l ∈ l ∧
    (1 : ℚ) ∈ l.map (fun v => v / listMax l) ∧
    (∀ i, i < l.length →
      (l.map (fun v => v / listMax l)).getD i 0 = l.getD i 0 / listMax l) ∧
    (∀ i, i < l.length → l.getD i 0 = listMax l →
      (l.map (fun v => v / listMax l)).getD i 0 = 1) := by
  have hie : l.isEmpty = false := by simpa [List.isEmpty_iff] using hne
  have hget : ∀ i, i < l.length →
      (l.map (fun v => v / listMax l)).getD i 0 = l.getD i 0 / listMax l := by
    intro i hi
    have hi2 : i < (l.map (fun v => v / listMax l)).length := by simpa using hi
    rw [List.getD_eq_getElem _ _ hi2, List.getD_eq_getElem _ _ hi]
    simp
  refine ⟨by simp [normalizeScores, hie, h0], listMax_mem l hne, ?_, hget, ?_⟩
  · exact List.mem_map.mpr ⟨listMax l, listMax_mem l hne, div_self h0⟩
  · intro i hi hmax
    rw [hget i hi, hmax]
    exact div_self h0

/-- C7 witness: on the all-negative list [-2, -1/2] the maximum element
-1/2 normalizes to exactly 1. -/
theorem normalizeScores_max_one_witness :
    normalizeScores [-2, -1/2] =
      some ((([-2, -1/2] : List ℚ)).map (fun v => v / listMax [-2, -1/2])) ∧
    (1 : ℚ) ∈ (([-2, -1/2] : List ℚ)).map (fun v => v / listMax [-2, -1/2]) :=
  ⟨(normalizeScores_max_one [-2, -1/2] (by simp) (by norm_num [listMax])).1,
   (normalizeScores_max_one [-2, -1/2] (by simp) (by norm_num [listMax])).2.2.1⟩

/-! ### Lexical search (HybridSearchEngine.search_bm25) -/

/-- HybridSearchEngine.search_bm25: given whether the BM25 index is built
and the per-corpus-chunk BM25 scores of the query, return up to top_k
(index, score) pairs, highest scores first, keeping only strictly positive
scores; an unbuilt index or empty corpus yields the empty list. -/
def search_bm25 (indexBuilt : Bool) (scores : List ℚ) (top_k : Nat) :
    List (Nat × ℚ) :=
  if !indexBuilt || scores.isEmpty then []
  else
    ((((List.range scores.length).mergeSort
        (fun i j => decide (scores.getD j 0 ≤ scores.getD i 0))).take top_k).filter
      (fun i => decide (0 < scores.getD i 0))).map (fun i => (i, scores.getD i 0))

/-- C9: search_bm25 returns at most top_k results, each an in-range corpus
index paired with its strictly positive BM25 score, sorted descending by
score; zero-score chunks are excluded and an unbuilt index yields []. -/
theorem search_bm25_spec (indexBuilt : Bool) (scores : List ℚ) (top_k : Nat) :
    search_bm25 false scores top_k = [] ∧
    (search_bm25 indexBuilt scores top_k).length ≤ top_k ∧
    (∀ p ∈ search_bm25 indexBuilt scores top_k,
      p.1 < scores.length ∧ 0 < p.2 ∧ p.2 = scores.getD p.1 0) ∧
    (search_bm25 indexBuilt scores top_k).Pairwise (fun p q => q.2 ≤ p.2) := by
  refine ⟨by simp [search_bm25], ?_, ?_, ?_⟩
  · by_cases hb : (!indexBuilt || scores.isEmpty) = true
    · simp [search_bm25, hb]
    · rw [search_bm25, if_neg hb, List.length_map]
      exact le_trans (List.length_filter_le _ _) (List.length_take_le _ _)
  · by_cases hb : (!indexBuilt || scores.isEmpty) = true
    · simp [search_bm25, hb]
    · intro p hp
      rw [search_bm25, if_neg hb] at hp
      obtain ⟨i, hi, hpi⟩ := List.mem_map.mp hp
      have hif := List.mem_filter.mp hi
      have hrange : i ∈ List.range scores.length := by
        have := List.mem_of_mem_take hif.1
        simpa using this
      subst hpi
      refine ⟨List.mem_range.mp hrange, ?_, rfl⟩
      exact of_decide_eq_true hif.2
  · by_cases hb : (!indexBuilt || scores.isEmpty) = true
    · simp [search_bm25, hb]
    · rw [search_bm25, if_neg hb]
      have hsorted := @List.sorted_mergeSort Nat
        (fun i j => decide (scores.getD j 0 ≤ scores.getD i 0))
        (fun a b c hab hbc => by
          simp only [decide_eq_true_eq] at *
          exact le_trans hbc hab)
        (fun a b => by
          simp only [Bool.or_eq_true, decide_eq_true_eq]
          exact le_total (scores.getD b 0) (scores.getD a 0))
        (List.range scores.length)
      have h1 : (((List.range scores.length).mergeSort
          (fun i j => decide (scores.getD j 0 ≤ scores.getD i 0))).take
            top_k).Pairwise (fun i j => scores.getD j 0 ≤ scores.getD i 0) :=
        List.Pairwise.sublist (List.take_sublist _ _)
          (hsorted.imp (fun hab => of_decide_eq_true hab))
      have h2 : ((((List.range scores.length).mergeSort
          (fun i j => decide (scores.getD j 0 ≤ scores.getD i 0))).take
            top_k).filter (fun i => decide (0 < scores.getD i 0))).Pairwise
          (fun i j => scores.getD j 0 ≤ scores.getD i 0) :=
        List.Pairwise.sublist (List.filter_sublist _) h1
      exact List.pairwise_map.mpr h2

/-- C9 witness: with a built index over scores [0, 3, 1] and top_k = 2, every
returned pair is in range with positive score equal to its corpus score. -/
theorem search_bm25_spec_witness :
    search_bm25 false [0, 3, 1] 2 = [] ∧
    (search_bm25 true [0, 3, 1] 2).length ≤ 2 :=
  ⟨(search_bm25_spec true [0, 3, 1] 2).1, (search_bm25_spec true [0, 3, 1] 2).2.1⟩

/-! ### Feedback application (FeedbackService.apply_feedback_to_scores) -/

/-- One entry of the result list handed to apply_feedback_to_scores: a chunk
id, the current score, and whatever trailing tuple elements it carries. -/
structure RankedItem (α : Type) where
  chunk_id : Nat
  score : ℚ
  extra : α
deriving DecidableEq

/-- Per-item adjustment of apply_feedback_to_scores: add the accumulated
per-chunk feedback score (0 when the chunk has none) to the score field. -/
def adjustItem {α : Type} (fb : FeedbackMap) (it : RankedItem α) : RankedItem α :=
  { it with score := it.score + getScore fb it.chunk_id }

/-- FeedbackService.apply_feedback_to_scores: adjust every item's score by
its per-chunk feedback accumulator and re-sort descending by the adjusted
score. -/
def apply_feedback_to_scores {α : Type} (fb : FeedbackMap)
    (items : List (RankedItem α)) : List (RankedItem α) :=
  (items.map (adjustItem fb)).mergeSort (fun a b => decide (b.score ≤ a.score))

theorem getScore_of_not_mem (m : FeedbackMap) (cid : Nat)
    (h : cid ∉ m.map Prod.fst) : getScore m cid = 0 := by
  have hfind : m.find? (fun p => p.1 == cid) = none := by
    rw [List.find?_eq_none]
    intro p hp
    simp only [beq_iff_eq]
    intro hc
    exact h (List.mem_map.mpr ⟨p, hp, hc⟩)
  simp [getScore, hfind]

/-- C10: apply_feedback_to_scores preserves the length and the multiset of
(chunk id, trailing data) pairs of its input — only scores and ordering
change — and an item whose chunk has no recorded feedback is passed through
with its score unchanged. -/
theorem apply_feedback_to_scores_spec {α : Type} (fb : FeedbackMap)
    (items : List (RankedItem α)) :
    (apply_feedback_to_scores fb items).length = items.length ∧
    (apply_feedback_to_scores fb items).Perm (items.map (adjustItem fb)) ∧
    ((apply_feedback_to_scores fb items).map
        (fun it => (it.chunk_id, it.extra))).Perm
      (items.map (fun it => (it.chunk_id, it.extra))) ∧
    (∀ it : RankedItem α, it.chunk_id ∉ fb.map Prod.fst →
      adjustItem fb it = it) ∧
    (∀ it ∈ items, it.chunk_id ∉ fb.map Prod.fst →
      it ∈ apply_feedback_to_scores fb items) := by
  have hperm : (apply_feedback_to_scores fb items).Perm
      (items.map (adjustItem fb)) := List.mergeSort_perm _ _
  have hfix : ∀ it : RankedItem α, it.chunk_id ∉ fb.map Prod.fst →
      adjustItem fb it = it := by
    intro it hit
    simp [adjustItem, getScore_of_not_mem fb it.chunk_id hit]
  refine ⟨by simp [apply_feedback_to_scores], hperm, ?_, hfix, ?_⟩
  · refine (hperm.map _).trans (List.Perm.of_eq ?_)
    rw [List.map_map]
    rfl
  · intro it hit hfb
    rw [hperm.mem_iff]
    have := hfix it hfb
    exact List.mem_map.mpr ⟨it, hit, this⟩

/-- C10 witness: a chunk (id 2) with no recorded feedback survives
apply_feedback_to_scores unchanged, and the output length matches. -/
theorem apply_feedback_to_scores_witness :
    (RankedItem.mk 2 1 (0:ℚ)) ∈
      apply_feedback_to_scores [(1, 1/2)] [⟨2, 1, (0:ℚ)⟩] ∧
    (apply_feedback_to_scores [(1, 1/2)] [RankedItem.mk 2 1 (0:ℚ)]).length = 1 :=
  ⟨(apply_feedback_to_scores_spec [(1, 1/2)] [⟨2, 1, (0:ℚ)⟩]).2.2.2.2
      ⟨2, 1, (0:ℚ)⟩ (by simp) (by simp),
   (apply_feedback_to_scores_spec [(1, 1/2)] [RankedItem.mk 2 1 (0:ℚ)]).1⟩

/-! ### Reciprocal rank fusion (HybridSearchEngine.reciprocal_rank_fusion) -/

/-- Indexed corpus chunk; only the identity matters to fusion. -/
structure Chunk where
  id : Nat
deriving DecidableEq

/-- Association-list keys, modelling dict key views. -/
def keys {γ : Type} (m : List (Nat × γ)) : List Nat :=
  m.map Prod.fst

/-- Dictionary accumulation rrf_scores[k] = rrf_scores.get(k, 0) + v. -/
def bumpScore : List (Nat × ℚ) → Nat → ℚ → List (Nat × ℚ)
  | [], k, v => [(k, v)]
  | p :: rest, k, v =>
    if p.1 = k then (p.1, p.2 + v) :: rest else p :: bumpScore rest k v

/-- Dictionary assignment chunk_map[k] = c. -/
def setChunk : List (Nat × Chunk) → Nat → Chunk → List (Nat × Chunk)
  | [], k, c => [(k, c)]
  | p :: rest, k, c =>
    if p.1 = k then (k, c) :: rest else p :: setChunk rest k c

/-- Dictionary access chunk_map.get(k). -/
def lookupChunk (m : List (Nat × Chunk)) (k : Nat) : Option Chunk :=
  match m.find? (fun p => p.1 == k) with
  | some p => some p.2
  | none => none

/-- HybridSearchEngine.reciprocal_rank_fusion: accumulate 1/(k + rank) per
ranked list into a score dict keyed by chunk id (vector list first, then
BM25 entries whose corpus index is in range), build the id-to-chunk map
(BM25 first, vector chunks overwriting), pair every scored id with its
chunk and sort descending by fused score. -/
def reciprocal_rank_fusion (kk : Nat) (vec : List (Chunk × ℚ))
    (bm : List (Nat × ℚ)) (indexed : List Chunk) : List (Chunk × ℚ) :=
  let m1 := vec.enum.foldl
    (fun m p => bumpScore m p.2.1.id (1 / ((kk : ℚ) + p.1 + 1))) []
  let m2 := bm.enum.foldl
    (fun m p =>
      if p.2.1 < indexed.length then
        bumpScore m (indexed.getD p.2.1 ⟨0⟩).id (1 / ((kk : ℚ) + p.1 + 1))
      else m) m1
  let cmapBM := bm.foldl
    (fun m p =>
      if p.1 < indexed.length then
        setChunk m (indexed.getD p.1 ⟨0⟩).id (indexed.getD p.1 ⟨0⟩)
      else m) []
  let cmap := vec.foldl (fun m p => setChunk m p.1.id p.1) cmapBM
  (m2.filterMap (fun p =>
    match lookupChunk cmap p.1 with
    | some c => some (c, p.2)
    | none => none)).mergeSort (fun a b => decide (b.2 ≤ a.2))

theorem keys_bumpScore_self : ∀ (m : List (Nat × ℚ)) (k : Nat) (v : ℚ),
    k ∈ keys (bumpScore m k v)
  | [], k, v => by simp [bumpScore, keys]
  | p :: rest, k, v => by
    by_cases h : p.1 = k
    · simp [bumpScore, h, keys]
    · rw [bumpScore, if_neg h]
      simp only [keys, List.map_cons, List.mem_cons]
      exact Or.inr (keys_bumpScore_self rest k v)

theorem keys_bumpScore_mono : ∀ (m : List (Nat × ℚ)) (k : Nat) (v : ℚ) (i : Nat),
    i ∈ keys m → i ∈ keys (bumpScore m k v)
  | [], _, _, i => by simp [keys]
  | p :: rest, k, v, i => by
    intro hi
    by_cases h : p.1 = k
    · rw [bumpScore, if_pos h]
      simpa [keys] using hi
    · rw [bumpScore, if_neg h]
      simp only [keys, List.map_cons, List.mem_cons] at hi ⊢
      rcases hi with hi | hi
      · exact Or.inl hi
      · exact Or.inr (keys_bumpScore_mono rest k v i hi)

theorem mem_setChunk : ∀ (m : List (Nat × Chunk)) (k : Nat) (c : Chunk)
    (q : Nat × Chunk), q ∈ setChunk m k c → q = (k, c) ∨ q ∈ m
  | [], k, c, q => by simp [setChunk]
  | p :: rest, k, c, q => by
    intro hq
    by_cases h : p.1 = k
    · rw [setChunk, if_pos h] at hq
      rcases List.mem_cons.mp hq with h1 | h2
      · exact Or.inl h1
      · exact Or.inr (List.mem_cons_of_mem _ h2)
    · rw [setChunk, if_neg h] at hq
      rcases List.mem_cons.mp hq with h1 | h2
      · exact Or.inr (by simp [h1])
      · rcases mem_setChunk rest k c q h2 with h3 | h3
        · exact Or.inl h3
        · exact Or.inr (List.mem_cons_of_mem _ h3)

theorem keys_setChunk_self : ∀ (m : List (Nat × Chunk)) (k : Nat) (c : Chunk),
    k ∈ keys (setChunk m k c)
  | [], k, c => by simp [setChunk, keys]
  | p :: rest, k, c => by
    by_cases h : p.1 = k
    · simp [setChunk, h, keys]
    · rw [setChunk, if_neg h]
      simp only [keys, List.map_cons, List.mem_cons]
      exact Or.inr (keys_setChunk_self rest k c)

theorem keys_setChunk_mono : ∀ (m : List (Nat × Chunk)) (k : Nat) (c : Chunk)
    (i : Nat), i ∈ keys m → i ∈ keys (setChunk m k c)
  | [], _, _, i => by simp [keys]
  | p :: rest, k, c, i => by
    intro hi
    by_cases h : p.1 = k
    · rw [setChunk, if_pos h]
      simp only [keys, List.map_cons, List.mem_cons] at hi ⊢
      rcases hi with hi | hi
      · exact Or.inl (by rw [hi, h])
      · exact Or.inr hi
    · rw [setChunk, if_neg h]
      simp only [keys, List.map_cons, List.mem_cons] at hi ⊢
      rcases hi with hi | hi
      · exact Or.inl hi
      · exact Or.inr (keys_setChunk_mono rest k c i hi)

theorem foldl_keys_pres {β γ : Type} (step : List (Nat × γ) → β → List (Nat × γ))
    (hstep : ∀ m b i, i ∈ keys m → i ∈ keys (step m b)) :
    ∀ (xs : List β) (m : List (Nat × γ)) (i : Nat),
      i ∈ keys m → i ∈ keys (xs.foldl step m)
  | [], _, _ => fun hi => hi
  | b :: rest, m, i => fun hi =>
    foldl_keys_pres step hstep rest (step m b) i (hstep m b i hi)

theorem foldl_keys_of_mem {β γ : Type} (step : List (Nat × γ) → β → List (Nat × γ))
    (hstep : ∀ m b i, i ∈ keys m → i ∈ keys (step m b)) (b : β) (key : Nat)
    (hb : ∀ m, key ∈ keys (step m b)) :
    ∀ (xs : List β) (m : List (Nat × γ)), b ∈ xs → key ∈ keys (xs.foldl step m)
  | [], _ => by simp
  | x :: rest, m => by
    intro hx
    rcases List.mem_cons.mp hx with h1 | h2
    · subst h1
      exact foldl_keys_pres step hstep rest (step m b) key (hb m)
    · exact foldl_keys_of_mem step hstep b key hb rest (step m x) h2

theorem foldl_entries_inv {β γ : Type} (P : Nat × γ → Prop)
    (step : List (Nat × γ) → β → List (Nat × γ))
    (hstep : ∀ m b, (∀ q ∈ m, P q) → ∀ q ∈ step m b, P q) :
    ∀ (xs : List β) (m : List (Nat × γ)),
      (∀ q ∈ m, P q) → ∀ q ∈ xs.foldl step m, P q
  | [], _ => fun hm => hm
  | b :: rest, m => fun hm =>
    foldl_entries_inv P step hstep rest (step m b) (hstep m b hm)

theorem find?_of_mem_keys : ∀ (m : List (Nat × Chunk)) (i : Nat),
    i ∈ keys m → ∃ q, m.find? (fun p => p.1 == i) = some q ∧ q ∈ m ∧ q.1 = i
  | [], i => by simp [keys]
  | p :: rest, i => by
    intro hi
    by_cases h : p.1 = i
    · refine ⟨p, ?_, List.mem_cons_self _ _, h⟩
      rw [List.find?_cons_of_pos]
      simp [h]
    · simp only [keys, List.map_cons, List.mem_cons] at hi
      rcases hi with hi | hi
      · exact absurd hi.symm h
      · obtain ⟨q, hq1, hq2, hq3⟩ := find?_of_mem_keys rest i hi
        refine ⟨q, ?_, List.mem_cons_of_mem _ hq2, hq3⟩
        rw [List.find?_cons_of_neg]
        · exact hq1
        · simp [h]

theorem lookupChunk_id_of_mem_keys (m : List (Nat × Chunk)) (i : Nat)
    (hinv : ∀ q ∈ m, (q : Nat × Chunk).2.id = q.1) (hi : i ∈ keys m) :
    ∃ c, lookupChunk m i = some c ∧ c.id = i := by
  obtain ⟨q, hq1, hq2, hq3⟩ := find?_of_mem_keys m i hi
  refine ⟨q.2, ?_, by rw [hinv q hq2, hq3]⟩
  simp [lookupChunk, hq1]

/-- C6: reciprocal rank fusion never drops a chunk — every chunk of the
vector result list and every BM25 result whose index lies within the
indexed corpus contributes its chunk id to the fused output. -/
theorem reciprocal_rank_fusion_no_drop (kk : Nat) (vec : List (Chunk × ℚ))
    (bm : List (Nat × ℚ)) (indexed : List Chunk)
    (hidx : ∀ p ∈ bm, p.1 < indexed.length) :
    (∀ c ∈ vec.map Prod.fst,
      c.id ∈ (reciprocal_rank_fusion kk vec bm indexed).map (fun q => q.1.id)) ∧
    (∀ p ∈ bm,
      (indexed.getD p.1 ⟨0⟩).id ∈
        (reciprocal_rank_fusion kk vec bm indexed).map (fun q => q.1.id)) := by
  have hbump1 : ∀ (m : List (Nat × ℚ)) (p : Nat × (Chunk × ℚ)) (i : Nat),
      i ∈ keys m →
      i ∈ keys (bumpScore m p.2.1.id (1 / ((kk : ℚ) + p.1 + 1))) :=
    fun m p i hi => keys_bumpScore_mono m _ _ i hi
  have hbump2 : ∀ (m : List (Nat × ℚ)) (p : Nat × (Nat × ℚ)) (i : Nat),
      i ∈ keys m →
      i ∈ keys (if p.2.1 < indexed.length then
        bumpScore m (indexed.getD p.2.1 ⟨0⟩).id (1 / ((kk : ℚ) + p.1 + 1))
        else m) := by
    intro m p i hi
    by_cases hc : p.2.1 < indexed.length
    · rw [if_pos hc]
      exact keys_bumpScore_mono m _ _ i hi
    · rwa [if_neg hc]
  have hset1 : ∀ (m : List (Nat × Chunk)) (p : Nat × ℚ) (i : Nat),
      i ∈ keys m →
      i ∈ keys (if p.1 < indexed.length then
        setChunk m (indexed.getD p.1 ⟨0⟩).id (indexed.getD p.1 ⟨0⟩) else m) := by
    intro m p i hi
    by_cases hc : p.1 < indexed.length
    · rw [if_pos hc]
      exact keys_setChunk_mono m _ _ i hi
    · rwa [if_neg hc]
  have hset2 : ∀ (m : List (Nat × Chunk)) (p : Chunk × ℚ) (i : Nat),
      i ∈ keys m → i ∈ keys (setChunk m p.1.id p.1) :=
    fun m p i hi => keys_setChunk_mono m _ _ i hi
  -- the id-to-chunk map only holds pairs whose value carries its key
  have hinv : ∀ q ∈ vec.foldl (fun m p => setChunk m p.1.id p.1)
      (bm.foldl (fun m p =>
        if p.1 < indexed.length then
          setChunk m (indexed.getD p.1 ⟨0⟩).id (indexed.getD p.1 ⟨0⟩)
        else m) []),
      (q : Nat × Chunk).2.id = q.1 := by
    refine foldl_entries_inv _ _ ?_ vec _ ?_
    · intro m p hm q hq
      rcases mem_setChunk m p.1.id p.1 q hq with h1 | h1
      · rw [h1]
      · exact hm q h1
    · refine foldl_entries_inv _ _ ?_ bm [] (by simp)
      intro m p hm q hq
      by_cases hc : p.1 < indexed.length
      · rw [if_pos hc] at hq
        rcases mem_setChunk m _ _ q hq with h1 | h1
        · rw [h1]
        · exact hm q h1
      · rw [if_neg hc] at hq
        exact hm q hq
  -- generic final step: an id in both dictionaries reaches the output
  have hfinal : ∀ i : Nat,
      i ∈ keys (bm.enum.foldl (fun m p =>
        if p.2.1 < indexed.length then
          bumpScore m (indexed.getD p.2.1 ⟨0⟩).id (1 / ((kk : ℚ) + p.1 + 1))
        else m)
        (vec.enum.foldl (fun m p =>
          bumpScore m p.2.1.id (1 / ((kk : ℚ) + p.1 + 1))) [])) →
      i ∈ keys (vec.foldl (fun m p => setChunk m p.1.id p.1)
        (bm.foldl (fun m p =>
          if p.1 < indexed.length then
            setChunk m (indexed.getD p.1 ⟨0⟩).id (indexed.getD p.1 ⟨0⟩)
          else m) [])) →
      i ∈ (reciprocal_rank_fusion kk vec bm indexed).map (fun q => q.1.id) := by
    intro i hm2 hcm
    obtain ⟨c, hc1, hc2⟩ := lookupChunk_id_of_mem_keys _ i hinv hcm
    obtain ⟨q, hq, hqi⟩ := List.mem_map.mp hm2
    refine List.mem_map.mpr ⟨(c, q.2), ?_, hc2⟩
    rw [reciprocal_rank_fusion]
    rw [List.mem_mergeSort]
    refine List.mem_filterMap.mpr ⟨q, hq, ?_⟩
    rw [hqi, hc1]
  constructor
  · intro c hc
    obtain ⟨ce, hce, hcee⟩ := List.mem_map.mp hc
    have hen : ce ∈ vec.enum.map Prod.snd := by
      rw [List.enum_map_snd]
      exact hce
    obtain ⟨pe, hpe, hpee⟩ := List.mem_map.mp hen
    refine hfinal c.id ?_ ?_
    · refine foldl_keys_pres _ hbump2 _ _ _ ?_
      refine foldl_keys_of_mem _ hbump1 pe c.id ?_ vec.enum [] hpe
      intro m
      rw [show pe.2.1.id = c.id by rw [hpee, hcee]] at *
      exact keys_bumpScore_self m _ _
    · refine foldl_keys_of_mem _ hset2 ce c.id ?_ vec _ hce
      intro m
      rw [show ce.1.id = c.id by rw [hcee]] at *
      exact keys_setChunk_self m _ _
  · intro p hp
    have hen : p ∈ bm.enum.map Prod.snd := by
      rw [List.enum_map_snd]
      exact hp
    obtain ⟨pe, hpe, hpee⟩ := List.mem_map.mp hen
    refine hfinal (indexed.getD p.1 ⟨0⟩).id ?_ ?_
    · refine foldl_keys_of_mem _ hbump2 pe _ ?_ bm.enum _ hpe
      intro m
      have hlt : pe.2.1 < indexed.length := by
        rw [hpee]
        exact hidx p hp
      rw [if_pos hlt, hpee]
      exact keys_bumpScore_self m _ _
    · refine foldl_keys_pres _ hset2 vec _ _ ?_
      refine foldl_keys_of_mem _ hset1 p _ ?_ bm [] hp
      intro m
      rw [if_pos (hidx p hp)]
      exact keys_setChunk_self m _ _

/-- C6 witness: with corpus chunk 7 at BM25 index 0 and chunk 3 in the
vector list, both chunk ids appear in the fused output. -/
theorem reciprocal_rank_fusion_no_drop_witness :
    (3:Nat) ∈ (reciprocal_rank_fusion 60 [(⟨3⟩, 1)] [(0, 2)] [⟨7⟩]).map
      (fun q => q.1.id) ∧
    (7:Nat) ∈ (reciprocal_rank_fusion 60 [(⟨3⟩, 1)] [(0, 2)] [⟨7⟩]).map
      (fun q => q.1.id) :=
  ⟨(reciprocal_rank_fusion_no_drop 60 [(⟨3⟩, 1)] [(0, 2)] [⟨7⟩]
      (by intro p hp; simp at hp; simp [hp])).1 ⟨3⟩ (by simp),
   (reciprocal_rank_fusion_no_drop 60 [(⟨3⟩, 1)] [(0, 2)] [⟨7⟩]
      (by intro p hp; simp at hp; simp [hp])).2 (0, 2) (by simp)⟩

/-! ### Hierarchical communities (GraphBuilder) -/

/-- Weighted undirected graph as an edge list, modelling the networkx graph
built exclusively through add_edge calls. -/
structure WGraph where
  edges : List (Nat × Nat × ℚ)
deriving DecidableEq

/-- First stored edge joining the two endpoints, in either orientation. -/
def WGraph.findEdge (g : WGraph) (a b : Nat) : Option (Nat × Nat × ℚ) :=
  g.edges.find? (fun e => (e.1 == a && e.2.1 == b) || (e.1 == b && e.2.1 == a))

/-- networkx graph.has_edge. -/
def WGraph.hasEdge (g : WGraph) (a b : Nat) : Bool :=
  (g.findEdge a b).isSome

/-- networkx graph[a][b].get("weight", 1.0): the stored weight of the edge. -/
def WGraph.edgeWeight (g : WGraph) (a b : Nat) : ℚ :=
  match g.findEdge a b with
  | some e => e.2.2
  | none => 0

/-- Distinct-element collapse of a node multiset (set/dict key semantics). -/
def dedupNats : List Nat → List Nat
  | [] => []
  | x :: rest => if x ∈ rest then dedupNats rest else x :: dedupNats rest

/-- Node set of the graph: the distinct endpoints of its edges. -/
def WGraph.nodeList (g : WGraph) : List Nat :=
  dedupNats (g.edges.foldr (fun e acc => e.1 :: e.2.1 :: acc) [])

/-- networkx number_of_nodes. -/
def WGraph.nodeCount (g : WGraph) : Nat :=
  g.nodeList.length

/-- Numerator of GraphBuilder._calculate_community_similarity: over all
member pairs, add the stored edge weight whenever the pair is joined. -/
def edgeWeightSum (g : WGraph) (c1 c2 : List Nat) : ℚ :=
  (c1.map (fun m1 => (c2.map (fun m2 =>
    if g.hasEdge m1 m2 then g.edgeWeight m1 m2 else 0)).sum)).sum

/-- Modelled from the spec: the count of real edges between the two member
sets (as a rational), the numerator the spec's wording prescribes. -/
def edgeHitCount (g : WGraph) (c1 c2 : List Nat) : ℚ :=
  (c1.map (fun m1 => (c2.map (fun m2 =>
    if g.hasEdge m1 m2 then (1 : ℚ) else 0)).sum)).sum

/-- GraphBuilder._calculate_community_similarity: weight sum between members
normalized by |A|*|B|, kept only when strictly above 0.1. -/
def calculate_community_similarity (g : WGraph) (c1 c2 : List Nat) : ℚ :=
  if c1.length * c2.length = 0 then 0
  else if 1/10 < edgeWeightSum g c1 c2 / ((c1.length : ℚ) * (c2.length : ℚ))
  then edgeWeightSum g c1 c2 / ((c1.length : ℚ) * (c2.length : ℚ))
  else 0

/-- Modelled from the spec: inter-community weight as the count of real
edges over |A|*|B|, snapped to 0 when below 0.1. -/
def communitySimilaritySpec (g : WGraph) (c1 c2 : List Nat) : ℚ :=
  if c1.length * c2.length = 0 then 0
  else if edgeHitCount g c1 c2 / ((c1.length : ℚ) * (c2.length : ℚ)) < 1/10
  then 0
  else edgeHitCount g c1 c2 / ((c1.length : ℚ) * (c2.length : ℚ))

/-- C5 counterexample: with singleton communities joined by one edge of
weight 1/2 the code yields 1/2 while the spec's edge-count formula yields 1;
and at exactly 0.1 (one weight-1 edge, |A|*|B| = 10) the code snaps to 0
while the spec keeps 0.1 (the code snaps at <= 0.1, not < 0.1). -/
theorem calculate_community_similarity_counterexample :
    calculate_community_similarity ⟨[(0, 1, 1/2)]⟩ [0] [1] = 1/2 ∧
    communitySimilaritySpec ⟨[(0, 1, 1/2)]⟩ [0] [1] = 1 ∧
    calculate_community_similarity ⟨[(0, 1, 1)]⟩ [0]
      [1, 2, 3, 4, 5, 6, 7, 8, 9, 10] = 0 ∧
    communitySimilaritySpec ⟨[(0, 1, 1)]⟩ [0]
      [1, 2, 3, 4, 5, 6, 7, 8, 9, 10] = 1/10 := by
  refine ⟨?_, ?_, ?_, ?_⟩ <;>
    (simp [calculate_community_similarity, communitySimilaritySpec,
      edgeWeightSum, edgeHitCount, WGraph.hasEdge, WGraph.findEdge,
      WGraph.edgeWeight, List.find?]
     try norm_num)

theorem edgeWeightSum_eq_count (g : WGraph) (c1 c2 : List Nat)
    (hw : ∀ e ∈ g.edges, (e : Nat × Nat × ℚ).2.2 = 1) :
    edgeWeightSum g c1 c2 = edgeHitCount g c1 c2 := by
  have hone : ∀ a b : Nat, g.hasEdge a b = true → g.edgeWeight a b = 1 := by
    intro a b hab
    obtain ⟨e, he⟩ := Option.isSome_iff_exists.mp hab
    have hmem : e ∈ g.edges := List.mem_of_find?_eq_some he
    simp [WGraph.edgeWeight, he, hw e hmem]
  unfold edgeWeightSum edgeHitCount
  congr 1
  refine List.map_congr_left fun m1 _ => ?_
  congr 1
  refine List.map_congr_left fun m2 _ => ?_
  by_cases h : g.hasEdge m1 m2
  · rw [if_pos h, if_pos h, hone m1 m2 h]
  · rw [if_neg h, if_neg h]

/-- C5 (amended): the inter-community edge weight is the sum of the stored
weights of real edges between A's and B's members divided by |A|*|B|,
snapped to 0 whenever it is at or below 0.1 (so surviving weights are
strictly above 0.1); when every stored edge has weight 1 this numerator
coincides with the spec's edge count. -/
theorem calculate_community_similarity_spec (g : WGraph) (c1 c2 : List Nat)
    (h1 : c1 ≠ []) (h2 : c2 ≠ [])
    (hw : ∀ e ∈ g.edges, (e : Nat × Nat × ℚ).2.2 = 1) :
    calculate_community_similarity g c1 c2 =
      (if 1/10 < edgeHitCount g c1 c2 / ((c1.length : ℚ) * (c2.length : ℚ))
       then edgeHitCount g c1 c2 / ((c1.length : ℚ) * (c2.length : ℚ))
       else 0) ∧
    (calculate_community_similarity g c1 c2 = 0 ∨
      1/10 < calculate_community_similarity g c1 c2) := by
  have hsz : c1.length * c2.length ≠ 0 := by
    simp only [Nat.mul_ne_zero_iff, List.length_eq_zero]
    exact ⟨fun h => h1 (by simpa using h), fun h => h2 (by simpa using h)⟩
  constructor
  · rw [calculate_community_similarity, if_neg hsz,
      edgeWeightSum_eq_count g c1 c2 hw]
  · rw [calculate_community_similarity, if_neg hsz]
    by_cases hc : 1/10 <
        edgeWeightSum g c1 c2 / ((c1.length : ℚ) * (c2.length : ℚ))
    · rw [if_pos hc]
      exact Or.inr hc
    · rw [if_neg hc]
      exact Or.inl rfl

/-- C5 witness: on singleton communities joined by a weight-1 edge the code
similarity is nonzero, hence strictly above 0.1. -/
theorem calculate_community_similarity_spec_witness :
    calculate_community_similarity ⟨[(0, 1, 1)]⟩ [0] [1] = 0 ∨
    (1:ℚ)/10 < calculate_community_similarity ⟨[(0, 1, 1)]⟩ [0] [1] :=
  (calculate_community_similarity_spec ⟨[(0, 1, 1)]⟩ [0] [1] (by simp) (by simp)
    (by intro e he; simp at he; simp [he])).2

/-- Grouping of partition output into member lists, modelling the
communities_dict loop of build_hierarchical_communities. -/
def groupPartition (nodes : List Nat) (f : Nat → Nat) : List (List Nat) :=
  (dedupNats (nodes.map f)).map (fun cid => nodes.filter (fun n => f n == cid))

/-- Community filter of build_hierarchical_communities: keep groups of at
least min_community_size members, or any group at level 0. -/
def levelCommunities (g : WGraph) (f : Nat → Nat) (minSize level : Nat) :
    List (List Nat) :=
  (groupPartition g.nodeList f).filter
    (fun c => decide (minSize ≤ c.length) || level == 0)

/-- Ordered index pairs i < j over n communities (the i < j double loop). -/
def indexPairs (n : Nat) : List (Nat × Nat) :=
  (List.range n).flatMap (fun i =>
    ((List.range n).filter (fun j => decide (i < j))).map (fun j => (i, j)))

/-- Next-level community graph of build_hierarchical_communities: one node
per community, an edge for every pair with positive snapped similarity. -/
def nextLevelGraph (g : WGraph) (comms : List (List Nat)) : WGraph :=
  ⟨(indexPairs comms.length).filterMap (fun ij =>
    if 0 < calculate_community_similarity g (comms.getD ij.1 [])
        (comms.getD ij.2 [])
    then some (ij.1, ij.2,
      calculate_community_similarity g (comms.getD ij.1 []) (comms.getD ij.2 []))
    else none)⟩

/-- Level loop of GraphBuilder.build_hierarchical_communities, with the
external Louvain partitioner abstracted as the detect oracle (level and
graph to a node-to-community assignment) and fuel = max_levels - level:
stop when the fuel is exhausted or the graph has at most one node, emit the
filtered communities, stop after emitting when at most one community
remains, otherwise recurse on the next-level graph. -/
def buildLevelsAux (detect : Nat → WGraph → Nat → Nat) (minSize : Nat) :
    Nat → Nat → WGraph → List (List (List Nat))
  | 0, _, _ => []
  | fuel+1, level, g =>
    if g.nodeCount ≤ 1 then []
    else
      if (levelCommunities g (detect level g) minSize level).length ≤ 1 then
        [levelCommunities g (detect level g) minSize level]
      else
        levelCommunities g (detect level g) minSize level ::
          buildLevelsAux detect minSize fuel (level+1)
            (nextLevelGraph g (levelCommunities g (detect level g) minSize level))

/-- GraphBuilder.build_hierarchical_communities: run the level loop from
level 0 with max_levels of fuel. -/
def build_hierarchical_communities (detect : Nat → WGraph → Nat → Nat)
    (minSize maxLevels : Nat) (g : WGraph) : List (List (List Nat)) :=
  buildLevelsAux detect minSize maxLevels 0 g

theorem buildLevelsAux_length_le (detect : Nat → WGraph → Nat → Nat)
    (minSize : Nat) :
    ∀ (fuel level : Nat) (g : WGraph),
      (buildLevelsAux detect minSize fuel level g).length ≤ fuel
  | 0, _, _ => by simp [buildLevelsAux]
  | fuel+1, level, g => by
    rw [buildLevelsAux]
    by_cases h1 : g.nodeCount ≤ 1
    · simp [h1]
    · rw [if_neg h1]
      by_cases h2 : (levelCommunities g (detect level g) minSize level).length ≤ 1
      · rw [if_pos h2]
        simp
      · rw [if_neg h2]
        simpa using Nat.succ_le_succ
          (buildLevelsAux_length_le detect minSize fuel (level+1) _)

/-- C8 (amended): hierarchical community construction always terminates and
produces at most max_levels levels, because the level counter strictly
increases every iteration and the loop also stops once at most one
community remains; no strict node-count decrease between levels is
enforced, so the loop may run again on a graph with unchanged node count
until the level bound is reached. -/
theorem build_hierarchical_communities_le_maxLevels
    (detect : Nat → WGraph → Nat → Nat) (minSize maxLevels : Nat) (g : WGraph) :
    (build_hierarchical_communities detect minSize maxLevels g).length ≤
      maxLevels :=
  buildLevelsAux_length_le detect minSize maxLevels 0 g

/-- C8 counterexample: with a partition oracle assigning every node its own
community (a legal output of the abstracted external detector), minimum
size 1 and max_levels 3 on the two-node weight-1 graph, every level keeps
exactly 2 communities and the loop re-runs on a graph with the same node
count — the level L+1 community count never drops below the level L count
and iteration continues on an unchanged graph until the level bound. -/
theorem build_hierarchical_no_shrink_counterexample :
    (build_hierarchical_communities (fun _ _ n => n) 1 3 ⟨[(0, 1, 1)]⟩).map
      List.length = [2, 2, 2] ∧
    nextLevelGraph ⟨[(0, 1, 1)]⟩ [[0], [1]] = ⟨[(0, 1, 1)]⟩ ∧
    (nextLevelGraph ⟨[(0, 1, 1)]⟩ [[0], [1]]).nodeCount =
      (⟨[(0, 1, 1)]⟩ : WGraph).nodeCount ∧
    ¬((2:Nat) < 2) := by
  have hnext : nextLevelGraph ⟨[(0, 1, 1)]⟩ [[0], [1]] = ⟨[(0, 1, 1)]⟩ := by
    simp [nextLevelGraph, indexPairs, List.range_succ, List.filterMap_cons,
      calculate_community_similarity, edgeWeightSum, WGraph.hasEdge,
      WGraph.findEdge, WGraph.edgeWeight, List.find?]
    try norm_num
  have hcomms : ∀ level,
      levelCommunities ⟨[(0, 1, 1)]⟩ (fun n => n) 1 level = [[0], [1]] := by
    intro level
    simp [levelCommunities, groupPartition, WGraph.nodeList, dedupNats,
      List.filter]
  have hnc : (⟨[(0, 1, 1)]⟩ : WGraph).nodeCount = 2 := rfl
  refine ⟨?_, hnext, by rw [hnext], by simp⟩
  show (buildLevelsAux (fun _ _ n => n) 1 (2+1) 0 ⟨[(0, 1, 1)]⟩).map
      List.length = [2, 2, 2]
  rw [buildLevelsAux, if_neg (by rw [hnc]; omega), hcomms 0,
    if_neg (by simp), hnext]
  show ((([[0], [1]] : List (List Nat)) ::
      buildLevelsAux (fun _ _ n => n) 1 (1+1) 1 ⟨[(0, 1, 1)]⟩).map
        List.length) = [2, 2, 2]
  rw [buildLevelsAux, if_neg (by rw [hnc]; omega), hcomms 1,
    if_neg (by simp), hnext]
  show ((([[0], [1]] : List (List Nat)) :: ([[0], [1]] : List (List Nat)) ::
      buildLevelsAux (fun _ _ n => n) 1 (0+1) 2 ⟨[(0, 1, 1)]⟩).map
        List.length) = [2, 2, 2]
  rw [buildLevelsAux, if_neg (by rw [hnc]; omega), hcomms 2,
    if_neg (by simp), hnext]
  rw [buildLevelsAux]
  simp

end Bouquet
